import Mathlib

/-!
Verification of the CoinGecko market-cap ETL (Go) against its
natural-language specification.

Shallow embedding conventions:
- Calendar dates are modelled as `Int` — the number of days since the Unix
  epoch (`dateOnlyUTC` truncation makes every date value day-granular, and
  `AddDate(0,0,n)` is `+ n`).  The Go code stores day keys as `"2006-01-02"`
  strings; lexicographic order on that format coincides with day order, so
  string comparison and sorting are modelled as `Int` comparison and sorting.
- Timestamps are Unix milliseconds as `Int`; the UTC calendar day of a
  timestamp `ms` is `ms.fdiv 86400000` (floor division, matching
  `time.UnixMilli(ms).UTC()` day truncation also for negative values).
- Metric values (`float64` in Go) are an abstract type `α`: the code never
  computes with them, it only copies them, so any inhabited type is faithful.
  The conversion `int64(row[0])` from a sample row to milliseconds is an
  abstract function `msOf : α → Int`.
- Database queries and HTTP fetch attempts are oracles passed in explicitly:
  `Option (Finset Int)` for a day-set query (`none` = query error) and
  `Nat → FetchAttempt α` for the sequence of fetch attempts.
-/

namespace CG

/-- Milliseconds per UTC calendar day. -/
def msPerDay : Int := 86400000

/-- Model of `daysInclusive` from util.go: all day values from `f` to `t` inclusive
(empty when `t < f`). -/
def daysInclusive (f t : Int) : List Int :=
  if f ≤ t then
    (List.range (t - f + 1).toNat).map (fun (i : Nat) => f + (i : Int))
  else []

/-- Model of `truncate` from util.go (length measured in characters in the model). -/
def truncate (s : String) (n : Nat) : String :=
  if s.length ≤ n then s else s.take n ++ "..."

/-- Model of `strings.TrimSpace`: drop leading and trailing whitespace (modelled on
the character list so that it evaluates by kernel reduction). -/
def trimS (s : String) : String :=
  ⟨((s.data.dropWhile Char.isWhitespace).reverse.dropWhile
      Char.isWhitespace).reverse⟩

/-- Model of `strings.ToUpper` (ASCII, as used for ticker symbols). -/
def toUpperS (s : String) : String := ⟨s.data.map Char.toUpper⟩

/-- Model of `strings.ToLower` (ASCII, as used for ticker symbols). -/
def toLowerS (s : String) : String := ⟨s.data.map Char.toLower⟩

/-- Model of `isRetryableStatus` from util.go. -/
def isRetryableStatus (code : Int) : Bool :=
  if code = 0 then true
  else if code = 408 ∨ code = 425 ∨ code = 429 ∨ code = 500 ∨
          code = 502 ∨ code = 503 ∨ code = 504 then true
  else false

/-- Model of `TaskPhase` from scheduler.go. -/
inductive TaskPhase
  | backfill
  | incremental
  deriving DecidableEq, Repr, Inhabited

/-- Model of `Task` from scheduler.go.  `From`/`To` are day-granular dates. -/
structure Task where
  CoinID : String
  Symbol : String
  From : Int
  To : Int
  Retry : Int
  Phase : TaskPhase
  deriving DecidableEq, Repr, Inhabited

/-- Model of `TaskResult` from scheduler.go.  `MissingDates` holds day values in place
of the Go date strings. -/
structure TaskResult where
  Task : Task
  Inserted : Int
  APIDays : Int
  Empty : Bool
  HTTPStatus : Int
  Err : String
  MissingDates : List Int
  ActiveNow : Bool
  deriving DecidableEq, Repr, Inhabited

/-- Model of `CoinState` from scheduler.go. -/
structure CoinState where
  SearchEnd : Int
  SearchEmpty : Int
  SeenData : Bool
  ConsecutiveEmpty : Int
  Done : Bool
  deriving DecidableEq, Repr, Inhabited

/-- Model of `Coin` from the API client file. -/
structure Coin where
  ID : String
  Symbol : String
  Name : String
  deriving DecidableEq, Repr, Inhabited

/-- The configuration fields of `Config` (config.go) used by the scheduling
and task-processing code. -/
structure Config where
  VsCurrency : String
  StartDate : Int
  EmptyStopBlocks : Int
  MaxSearchBlocks : Int
  MaxRetriesPerBlock : Int
  CoinIDsFilter : Option (String → Bool)

/-- Model of `makeTaskFixedWindow` from scheduler.go: the ≤100-day backfill window
ending at `endDate`, clamped at `startLimit`; `none` when the end date is
already before the start-date floor. -/
def makeTaskFixedWindow (coinID symbol : String) (endDate startLimit : Int) :
    Option Task :=
  if endDate < startLimit then none
  else
    let start := endDate - 99
    let start := if start < startLimit then startLimit else start
    some { CoinID := coinID, Symbol := symbol, From := start, To := endDate,
           Retry := 0, Phase := .backfill }

/-- The `blockHasData` condition from RunBackfill (scheduler.go line 224). -/
def blockHasData (res : TaskResult) : Bool :=
  res.Err == "" && !res.Empty && res.APIDays > 0

/-- The CoinState mutation RunBackfill performs after draining one terminal
(non-requeued) task result (scheduler.go lines 224–283). -/
def backfillStateUpdate (cfg : Config) (st : CoinState) (res : TaskResult) :
    CoinState :=
  let st :=
    if blockHasData res then
      { st with SeenData := true, SearchEmpty := 0, ConsecutiveEmpty := 0 }
    else if st.SeenData then
      { st with ConsecutiveEmpty := st.ConsecutiveEmpty + 1 }
    else
      { st with SearchEmpty := st.SearchEmpty + 1,
                SearchEnd := res.Task.From - 1 }
  let st :=
    if st.SeenData ∧ cfg.EmptyStopBlocks ≤ st.ConsecutiveEmpty then
      { st with Done := true }
    else st
  if st.SeenData = false ∧ cfg.MaxSearchBlocks ≤ st.SearchEmpty then
    { st with Done := true }
  else st

/-- The retry copy both schedulers requeue: `rt := res.Task; rt.Retry++`. -/
def retryTask (t : Task) : Task := { t with Retry := t.Retry + 1 }

/-- One iteration of RunBackfill's result-drain loop (scheduler.go lines
176–283): given the per-coin states, the pending queue and the active-coin
map, process one received result. -/
def backfillDrainStep (cfg : Config) (states : String → Option CoinState)
    (pending : List Task) (active : String → Option Coin) (res : TaskResult) :
    (String → Option CoinState) × List Task × (String → Option Coin) :=
  match states res.Task.CoinID with
  | none => (states, pending, active)
  | some st =>
    if st.Done then (states, pending, active)
    else if res.MissingDates ≠ [] ∧ res.Task.Retry < cfg.MaxRetriesPerBlock then
      (states, retryTask res.Task :: pending, active)
    else
      let active' :=
        if res.ActiveNow then
          fun id => if id = res.Task.CoinID then
            some { ID := res.Task.CoinID, Symbol := toLowerS res.Task.Symbol,
                   Name := "" }
          else active id
        else active
      (fun id => if id = res.Task.CoinID then
          some (backfillStateUpdate cfg st res)
        else states id,
       pending, active')

/-- The effect of a result list on a single coin's state when every result is
drained by RunBackfill's loop: done coins are skipped, requeue-branch results
leave the state untouched, terminal results apply `backfillStateUpdate`. -/
def drainCoin (cfg : Config) (st : CoinState) (l : List TaskResult) :
    CoinState :=
  l.foldl (fun s r =>
    if s.Done then s
    else if r.MissingDates ≠ [] ∧ r.Task.Retry < cfg.MaxRetriesPerBlock then s
    else backfillStateUpdate cfg s r) st

/-- One iteration of runIncrementalOnce's result-drain loop (main.go lines
206–250), restricted to its effect on the pending queue. -/
def incrementalDrainStep (cfg : Config) (pending : List Task)
    (res : TaskResult) : List Task :=
  if res.Err ≠ "" then pending
  else if res.MissingDates ≠ [] ∧ res.Task.Retry < cfg.MaxRetriesPerBlock then
    retryTask res.Task :: pending
  else pending

/-- The window-chopping loop of BuildIncrementalTasks (scheduler.go lines
384–398): consecutive windows `[cur, min (cur+99) yday]` until `yday` is
covered. -/
def incWindows (yday cur : Int) : List (Int × Int) :=
  if h : yday < cur then []
  else
    let e := if yday < cur + 99 then yday else cur + 99
    (cur, e) :: incWindows yday (e + 1)
termination_by (yday + 1 - cur).toNat
decreasing_by
  simp only [not_lt] at h
  split <;> omega

/-- The per-coin body of BuildIncrementalTasks (scheduler.go lines 364–399). -/
def coinIncTasks (cfg : Config) (yday : Int) (maxDates : String → Option Int)
    (c : Coin) : List Task :=
  if (match cfg.CoinIDsFilter with
      | some f => !f c.ID
      | none => false) then []
  else
    let id := trimS c.ID
    let sym := toUpperS (trimS c.Symbol)
    if id = "" ∨ sym = "" then []
    else
      match maxDates id with
      | none => []
      | some maxD =>
        let start := maxD + 1
        if yday < start then []
        else (incWindows yday start).map (fun w =>
          { CoinID := id, Symbol := sym, From := w.1, To := w.2,
            Retry := 0, Phase := .incremental })

/-- Model of `BuildIncrementalTasks` from scheduler.go.  `maxDates` is the per-coin
maximum stored day (absent when the store has no rows for the coin); `yday`
is `yesterdayUTC()`. -/
def BuildIncrementalTasks (cfg : Config) (activeCoins : List Coin)
    (maxDates : String → Option Int) (yday : Int) : List Task :=
  activeCoins.foldl (fun acc c => acc ++ coinIncTasks cfg yday maxDates c) []

/-! Section: The task processor (worker.go) -/

variable {α : Type} [Inhabited α]

/-- Model of `MarketChartRangeResp` from the API client file: three independently
lengthed series of rows; a row is `[]float64` in Go. -/
structure MarketChartRangeResp (α : Type) where
  prices : List (List α)
  marketCaps : List (List α)
  totalVolumes : List (List α)

/-- The outcome of one call of `cg.MarketChartRange`: the decoded response,
the HTTP status, the raw body and the error (`none` = success). -/
structure FetchAttempt (α : Type) where
  resp : MarketChartRangeResp α
  status : Int
  body : String
  err : Option String

/-- The zero-valued response left when the fetch loop never executes. -/
def emptyResp (α : Type) : MarketChartRangeResp α := ⟨[], [], []⟩

/-- The index at which handleTask's fetch loop (worker.go lines 58–69) stops,
starting at attempt `i` with `fuel` further attempts allowed: stop on
success, on a non-retryable status, or when the budget is exhausted. -/
def fetchLoopIdx (attempts : Nat → FetchAttempt α) (fuel i : Nat) : Nat :=
  let a := attempts i
  if a.err = none then i
  else if isRetryableStatus a.status = false then i
  else
    match fuel with
    | 0 => i
    | fuel' + 1 => fetchLoopIdx attempts fuel' (i + 1)

/-- The fetch loop of handleTask: attempts `0 .. maxR` (none at all when the
configured budget is negative, in which case Go's loop leaves the zero
response and a nil error). -/
def fetchLoop (attempts : Nat → FetchAttempt α) (maxR : Int) :
    Option (FetchAttempt α) :=
  if maxR < 0 then none
  else some (attempts (fetchLoopIdx attempts maxR.toNat 0))

/-- The three metric kinds written by the aggregation switch. -/
inductive Metric
  | p
  | mc
  | v
  deriving DecidableEq, Repr

/-- Model of `dailyAgg` from worker.go; `ts` is a Unix-millisecond timestamp. -/
structure DailyAgg (α : Type) where
  ts : Int
  p : α
  mc : α
  v : α
  deriving Repr, DecidableEq

instance : Inhabited (DailyAgg α) := ⟨⟨0, default, default, default⟩⟩

/-- Write one metric field, as the `switch kind` in worker.go. -/
def setMetric (a : DailyAgg α) (k : Metric) (val : α) : DailyAgg α :=
  match k with
  | .p => { a with p := val }
  | .mc => { a with mc := val }
  | .v => { a with v := val }

/-- Read one metric field. -/
def getMetric (a : DailyAgg α) (k : Metric) : α :=
  match k with
  | .p => a.p
  | .mc => a.mc
  | .v => a.v

/-- Go-map lookup on an association list of day keys. -/
def lookupA : List (Int × β) → Int → Option β
  | [], _ => none
  | (k, v) :: rest, day => if k = day then some v else lookupA rest day

/-- Go-map upsert: update the entry for `day` through `g` (passing `none`
when the key is absent, in which case a new entry is appended). -/
def upsertDay (m : List (Int × DailyAgg α)) (day : Int)
    (g : Option (DailyAgg α) → DailyAgg α) : List (Int × DailyAgg α) :=
  match m with
  | [] => [(day, g none)]
  | (d, a) :: rest =>
    if d = day then (d, g (some a)) :: rest
    else (d, a) :: upsertDay rest day g

/-- The body of `apply` in worker.go (lines 84–111) for one row: rows with
fewer than two entries are skipped; otherwise the row's millisecond
timestamp (`int64(row[0])`, modelled by `msOf`) selects the UTC day, the
day's record keeps the latest timestamp, and the row's metric field is
overwritten. -/
def applyRow (msOf : α → Int) (kind : Metric)
    (m : List (Int × DailyAgg α)) (row : List α) : List (Int × DailyAgg α) :=
  match row with
  | t0 :: v0 :: _ =>
    let ms := msOf t0
    let day := Int.fdiv ms msPerDay
    upsertDay m day (fun old =>
      let a := old.getD { ts := ms, p := default, mc := default, v := default }
      let a := if a.ts < ms then { a with ts := ms } else a
      setMetric a kind v0)
  | _ => m

/-- Model of `apply(arr, kind)` from worker.go: fold one series into the day map. -/
def applySeries (msOf : α → Int) (kind : Metric)
    (m : List (Int × DailyAgg α)) (rows : List (List α)) :
    List (Int × DailyAgg α) :=
  rows.foldl (applyRow msOf kind) m

/-- The aggregation of a response: prices, then market caps, then volumes
(worker.go lines 113–115). -/
def aggregate (msOf : α → Int) (resp : MarketChartRangeResp α) :
    List (Int × DailyAgg α) :=
  applySeries msOf .v
    (applySeries msOf .mc
      (applySeries msOf .p [] resp.prices) resp.marketCaps) resp.totalVolumes

/-- The key list of the day map. -/
def keysOf (m : List (Int × DailyAgg α)) : List Int := m.map Prod.fst

/-- Model of `apiDays`: the sorted key list of the aggregation map (worker.go lines
128–132; `sort.Strings` on day strings is sorting the day values). -/
def sortedDays (m : List (Int × DailyAgg α)) : List Int :=
  (keysOf m).insertionSort (· ≤ ·)

/-- Model of `DailyPoint` from the storage file. -/
structure DailyPoint (α : Type) where
  ID : String
  Symbol : String
  VsCurrency : String
  Timestamp : Int
  Price : α
  MarketCap : α
  Volume : α

/-- Membership of a day in the (possibly failed) `existing` set; a nil Go map
reports every key absent. -/
def dayPresent (existing : Option (Finset Int)) (day : Int) : Bool :=
  match existing with
  | some s => decide (day ∈ s)
  | none => false

/-- The days handleTask selects for insertion: the sorted API days that are
not already present (worker.go lines 138–141). -/
def toInsertDays (existing : Option (Finset Int)) (apiDays : List Int) :
    List Int :=
  apiDays.filter (fun d => dayPresent existing d = false)

/-- The insert batch handleTask builds (worker.go lines 138–153). -/
def toInsertOf (t : Task) (vs : String) (existing : Option (Finset Int))
    (byDay : List (Int × DailyAgg α)) : List (DailyPoint α) :=
  (toInsertDays existing (sortedDays byDay)).map (fun day =>
    let a := (lookupA byDay day).getD default
    { ID := t.CoinID, Symbol := t.Symbol, VsCurrency := vs,
      Timestamp := a.ts, Price := a.p, MarketCap := a.mc, Volume := a.v })

/-- The oracles a single handleTask invocation consumes: the pre-insert
present-days query, the fetch attempts, the mid-task re-query used when the
pre-insert query failed (already `none` if that re-query failed too), the
insert outcome (`some e` = storage error `e`) and the post-insert
verification query; `yday` is `yesterdayUTC()`. -/
structure TaskEnv (α : Type) where
  preQ : Option (Finset Int)
  attempts : Nat → FetchAttempt α
  midQ : Option (Finset Int)
  insErr : Option String
  postQ : Option (Finset Int)
  yday : Int

/-- The tail of handleTask after a successful insert (worker.go lines
167–206): post-insert verification and the active-now tag. -/
def handleTaskVerify (env : TaskEnv α) (t : Task) (apiDays : List Int)
    (inserted : Int) : TaskResult :=
  let missing :=
    match env.postQ with
    | some aft => (apiDays.filter (fun d => decide (d ∉ aft))).insertionSort (· ≤ ·)
    | none => []
  let activeNow :=
    if t.To = env.yday ∨ env.yday - 2 < t.To then
      decide (env.yday - 2 ≤ apiDays.getLastD 0)
    else false
  { Task := t, Inserted := inserted, APIDays := (apiDays.length : Int),
    Empty := false, HTTPStatus := 200, Err := "",
    MissingDates := missing, ActiveNow := activeNow }

/-- handleTask from aggregation onwards (worker.go lines 82–206), given the
resolved `existing` day set. -/
def handleTaskAgg (cfg : Config) (msOf : α → Int) (env : TaskEnv α) (t : Task)
    (existing : Option (Finset Int)) (resp : MarketChartRangeResp α) :
    TaskResult :=
  let byDay := aggregate msOf resp
  if byDay.isEmpty then
    { Task := t, Inserted := 0, APIDays := 0, Empty := true,
      HTTPStatus := 200, Err := "", MissingDates := [], ActiveNow := false }
  else
    let apiDays := sortedDays byDay
    let toIns := toInsertOf t cfg.VsCurrency existing byDay
    if toIns.isEmpty then handleTaskVerify env t apiDays 0
    else
      match env.insErr with
      | some e =>
        { Task := t, Inserted := 0, APIDays := (apiDays.length : Int),
          Empty := false, HTTPStatus := 200, Err := e,
          MissingDates := [], ActiveNow := false }
      | none => handleTaskVerify env t apiDays (toIns.length : Int)

/-- handleTask from the fetch loop onwards (worker.go lines 53–206). -/
def handleTaskFetch (cfg : Config) (msOf : α → Int) (env : TaskEnv α)
    (t : Task) (existing : Option (Finset Int)) : TaskResult :=
  match fetchLoop env.attempts cfg.MaxRetriesPerBlock with
  | none => handleTaskAgg cfg msOf env t existing (emptyResp α)
  | some a =>
    match a.err with
    | some e =>
      { Task := t, Inserted := 0, APIDays := 0, Empty := true,
        HTTPStatus := a.status,
        Err := e ++ "; body=" ++ truncate a.body 300,
        MissingDates := [], ActiveNow := false }
    | none => handleTaskAgg cfg msOf env t existing a.resp

/-- Model of `handleTask` from worker.go.  The pre-insert query feeds both the
fast-path check and (on success) the later diff; when it failed, the diff
uses the mid-task re-query result instead. -/
def handleTask (cfg : Config) (msOf : α → Int) (env : TaskEnv α) (t : Task) :
    TaskResult :=
  let allDays := daysInclusive t.From t.To
  match env.preQ with
  | some ex =>
    if t.Retry = 0 ∧ ex.card = allDays.length ∧ 0 < allDays.length then
      { Task := t, Inserted := 0, APIDays := 0, Empty := false,
        HTTPStatus := 200, Err := "", MissingDates := [], ActiveNow := false }
    else handleTaskFetch cfg msOf env t (some ex)
  | none => handleTaskFetch cfg msOf env t env.midQ

/-- The sample a row contributes to `day` (none if the row is malformed or
belongs to another day): its millisecond timestamp and its value. -/
def samplesOfRow (msOf : α → Int) (day : Int) (row : List α) :
    Option (Int × α) :=
  match row with
  | t0 :: v0 :: _ =>
    if Int.fdiv (msOf t0) msPerDay = day then some (msOf t0, v0) else none
  | _ => none

/-- All samples one series contributes to `day`, in series order. -/
def samplesOf (msOf : α → Int) (rows : List (List α)) (day : Int) :
    List (Int × α) :=
  rows.filterMap (samplesOfRow msOf day)

/-- The effect of one sample on a day's record: create it if absent, keep
the later timestamp, overwrite the metric. -/
def applySample (kind : Metric) (old : Option (DailyAgg α)) (s : Int × α) :
    DailyAgg α :=
  let a := old.getD { ts := s.1, p := default, mc := default, v := default }
  let a := if a.ts < s.1 then { a with ts := s.1 } else a
  setMetric a kind s.2

/-- Fold a day's samples for one metric over an optional existing record. -/
def foldSamples (kind : Metric) (old : Option (DailyAgg α))
    (ss : List (Int × α)) : Option (DailyAgg α) :=
  ss.foldl (fun o s => some (applySample kind o s)) old

/-- Read a metric out of an optional record (absent = the zero value). -/
def getM (o : Option (DailyAgg α)) (k : Metric) : α :=
  match o with
  | none => default
  | some a => getMetric a k

/-- The timestamp of an optional record. -/
def tsM (o : Option (DailyAgg α)) : Option Int := o.map DailyAgg.ts

/-- Running maximum over a list starting from an optional value. -/
def mfold (o : Option Int) (l : List Int) : Option Int :=
  l.foldl (fun acc ms => some (match acc with
    | none => ms
    | some x => if x < ms then ms else x)) o

/-- The attempt at which handleTask's fetch loop stopped. -/
def lastAttempt (env : TaskEnv α) (maxR : Int) : FetchAttempt α :=
  env.attempts (fetchLoopIdx env.attempts maxR.toNat 0)

/-! Section: Lemmas about the incremental window builder -/

theorem incWindows_nil {yday cur : Int} (h : yday < cur) :
    incWindows yday cur = [] := by
  rw [incWindows]; simp [h]

theorem incWindows_cons {yday cur : Int} (h : ¬ yday < cur) :
    incWindows yday cur =
      (cur, if yday < cur + 99 then yday else cur + 99) ::
        incWindows yday ((if yday < cur + 99 then yday else cur + 99) + 1) := by
  rw [incWindows]; simp [h]

theorem incWindows_props (yday : Int) : ∀ cur : Int,
    (∀ w ∈ incWindows yday cur,
       cur ≤ w.1 ∧ w.1 ≤ w.2 ∧ w.2 - w.1 ≤ 99 ∧ w.2 ≤ yday) ∧
    (∀ d : Int, (∃ w ∈ incWindows yday cur, w.1 ≤ d ∧ d ≤ w.2) ↔
       cur ≤ d ∧ d ≤ yday) ∧
    List.Chain' (fun w1 w2 => w2.1 = w1.2 + 1) (incWindows yday cur) ∧
    (∀ w ∈ (incWindows yday cur).head?, w.1 = cur) ∧
    List.Pairwise (fun w1 w2 => w1.2 < w2.1) (incWindows yday cur) := by
  intro cur
  generalize hn : (yday + 1 - cur).toNat = n
  induction n using Nat.strong_induction_on generalizing cur with
  | _ n IH =>
    by_cases h : yday < cur
    · rw [incWindows_nil h]
      refine ⟨by simp, fun d => ?_, by simp, by simp, by simp⟩
      simp only [List.not_mem_nil]
      constructor
      · rintro ⟨w, hw, -⟩; exact absurd hw (by simp)
      · rintro ⟨h1, h2⟩; omega
    · rw [incWindows_cons h]
      set e := if yday < cur + 99 then yday else cur + 99 with he
      have he1 : cur ≤ e := by rw [he]; split <;> omega
      have he2 : e ≤ yday := by rw [he]; split <;> omega
      have he3 : e - cur ≤ 99 := by rw [he]; split <;> omega
      have hlt : (yday + 1 - (e + 1)).toNat < n := by omega
      obtain ⟨ih1, ih2, ih3, ih4, ih5⟩ := IH _ hlt (e + 1) rfl
      refine ⟨?_, ?_, ?_, ?_, ?_⟩
      · intro w hw
        rcases List.mem_cons.mp hw with rfl | hw
        · exact ⟨le_refl _, he1, he3, he2⟩
        · have := ih1 w hw; exact ⟨by omega, this.2.1, this.2.2.1, this.2.2.2⟩
      · intro d
        constructor
        · rintro ⟨w, hw, hd1, hd2⟩
          rcases List.mem_cons.mp hw with rfl | hw
          · exact ⟨hd1, le_trans hd2 he2⟩
          · have := (ih2 d).mp ⟨w, hw, hd1, hd2⟩; exact ⟨by omega, this.2⟩
        · rintro ⟨h1, h2⟩
          by_cases hd : d ≤ e
          · exact ⟨(cur, e), List.mem_cons_self _ _, h1, hd⟩
          · obtain ⟨w, hw, hw1, hw2⟩ := (ih2 d).mpr ⟨by omega, h2⟩
            exact ⟨w, List.mem_cons_of_mem _ hw, hw1, hw2⟩
      · refine List.chain'_cons'.mpr ⟨?_, ih3⟩
        intro w hw
        have := ih4 w hw
        simp [this]
      · intro w hw
        simp only [List.head?_cons, Option.mem_def, Option.some.injEq] at hw
        rw [← hw]
      · refine List.pairwise_cons.mpr ⟨?_, ih5⟩
        intro w hw
        have := ih1 w hw
        simp only; omega

theorem mem_foldl_append {γ : Type} (f : γ → List Task) (coins : List γ) :
    ∀ (acc : List Task) (t : Task),
      t ∈ coins.foldl (fun a c => a ++ f c) acc ↔
        t ∈ acc ∨ ∃ c ∈ coins, t ∈ f c := by
  induction coins with
  | nil => simp
  | cons c cs ih =>
    intro acc t
    simp only [List.foldl_cons, ih, List.mem_append, List.mem_cons]
    constructor
    · rintro ((h | h) | ⟨c', hc', ht⟩)
      · exact Or.inl h
      · exact Or.inr ⟨c, Or.inl rfl, h⟩
      · exact Or.inr ⟨c', Or.inr hc', ht⟩
    · rintro (h | ⟨c', (rfl | hc'), ht⟩)
      · exact Or.inl (Or.inl h)
      · exact Or.inl (Or.inr ht)
      · exact Or.inr ⟨c', hc', ht⟩

theorem mem_BuildIncrementalTasks {cfg : Config} {coins : List Coin}
    {maxDates : String → Option Int} {yday : Int} {t : Task} :
    t ∈ BuildIncrementalTasks cfg coins maxDates yday ↔
      ∃ c ∈ coins, t ∈ coinIncTasks cfg yday maxDates c := by
  unfold BuildIncrementalTasks
  rw [mem_foldl_append]
  simp

theorem coinIncTasks_inv {cfg : Config} {yday : Int}
    {maxDates : String → Option Int} {c : Coin} {t : Task}
    (ht : t ∈ coinIncTasks cfg yday maxDates c) :
    t.From ≤ t.To ∧ t.To - t.From ≤ 99 ∧ t.Retry = 0 := by
  unfold coinIncTasks at ht
  split at ht
  · exact absurd ht (by simp)
  · dsimp only at ht
    split at ht
    · exact absurd ht (by simp)
    · split at ht
      · exact absurd ht (by simp)
      · rename_i maxD heq
        split at ht
        · exact absurd ht (by simp)
        · obtain ⟨w, hw, rfl⟩ := List.mem_map.mp ht
          have := (incWindows_props yday (maxD + 1)).1 w hw
          exact ⟨this.2.1, this.2.2.1, rfl⟩

/-- C4: every Task produced by the backfill window builder and the
incremental task builder, and every requeued retry copy of a task
satisfying the window invariant, satisfies `From ≤ To`,
`To − From ≤ 100` days and `Retry ≤ MaxRetriesPerBlock`. -/
theorem task_invariants (cfg : Config) (hm : 0 ≤ cfg.MaxRetriesPerBlock)
    (coins : List Coin) (maxDates : String → Option Int) (yday : Int) :
    (∀ (cid sym : String) (endD sl : Int) (t : Task),
      makeTaskFixedWindow cid sym endD sl = some t →
      t.From ≤ t.To ∧ t.To - t.From ≤ 100 ∧
        t.Retry ≤ cfg.MaxRetriesPerBlock) ∧
    (∀ t ∈ BuildIncrementalTasks cfg coins maxDates yday,
      t.From ≤ t.To ∧ t.To - t.From ≤ 100 ∧
        t.Retry ≤ cfg.MaxRetriesPerBlock) ∧
    (∀ t : Task, t.From ≤ t.To → t.To - t.From ≤ 100 →
      t.Retry < cfg.MaxRetriesPerBlock →
      (retryTask t).From ≤ (retryTask t).To ∧
      (retryTask t).To - (retryTask t).From ≤ 100 ∧
      (retryTask t).Retry ≤ cfg.MaxRetriesPerBlock) := by
  refine ⟨?_, ?_, ?_⟩
  · intro cid sym endD sl t h
    unfold makeTaskFixedWindow at h
    split at h
    · exact absurd h (by simp)
    · rename_i h1
      dsimp only at h
      injection h with h2
      subst h2
      refine ⟨?_, ?_, hm⟩ <;> dsimp only <;> split_ifs <;> omega
  · intro t ht
    obtain ⟨c, -, htc⟩ := mem_BuildIncrementalTasks.mp ht
    have := coinIncTasks_inv htc
    exact ⟨this.1, by omega, by omega⟩
  · intro t h1 h2 h3
    unfold retryTask
    exact ⟨h1, h2, by simpa using h3⟩

/-- Witness for `task_invariants` at a concrete configuration. -/
theorem task_invariants_witness :
    (0 : Int) ≤ 3 ∧
    (∀ (cid sym : String) (endD sl : Int) (t : Task),
      makeTaskFixedWindow cid sym endD sl = some t →
      t.From ≤ t.To ∧ t.To - t.From ≤ 100 ∧ t.Retry ≤ 3) :=
  ⟨by decide,
   (task_invariants ⟨"usd", 0, 2, 30, 3, none⟩ (by decide) [] (fun _ => none) 7).1⟩

/-- C8: for an active coin that passes the allow-list filter and has a
recorded maximum stored day `m`, `coinIncTasks` produces no tasks when
`m ≥ yday` (or when no maximum is recorded), and otherwise produces
consecutive, pairwise non-overlapping windows of at most 100 days whose
union covers exactly `[m + 1, yday]`. -/
theorem incremental_windows_cover (cfg : Config) (yday : Int)
    (maxDates : String → Option Int) (c : Coin)
    (hflt : ∀ f, cfg.CoinIDsFilter = some f → f c.ID = true)
    (hid : ¬ trimS c.ID = "") (hsym : ¬ toUpperS (trimS c.Symbol) = "") :
    (maxDates (trimS c.ID) = none → coinIncTasks cfg yday maxDates c = []) ∧
    (∀ m : Int, maxDates (trimS c.ID) = some m → yday ≤ m →
      coinIncTasks cfg yday maxDates c = []) ∧
    (∀ m : Int, maxDates (trimS c.ID) = some m → m + 1 ≤ yday →
      coinIncTasks cfg yday maxDates c ≠ [] ∧
      (∀ t ∈ coinIncTasks cfg yday maxDates c,
        t.From ≤ t.To ∧ t.To - t.From ≤ 99) ∧
      List.Chain' (fun t1 t2 => t2.From = t1.To + 1)
        (coinIncTasks cfg yday maxDates c) ∧
      List.Pairwise (fun t1 t2 => t1.To < t2.From)
        (coinIncTasks cfg yday maxDates c) ∧
      (∀ d : Int, (∃ t ∈ coinIncTasks cfg yday maxDates c,
         t.From ≤ d ∧ d ≤ t.To) ↔ m + 1 ≤ d ∧ d ≤ yday)) := by
  have hfilter : (match cfg.CoinIDsFilter with
      | some f => !f c.ID
      | none => false) = false := by
    cases hcf : cfg.CoinIDsFilter with
    | none => rfl
    | some f => simp [hflt f hcf]
  refine ⟨?_, ?_, ?_⟩
  · intro hnone
    unfold coinIncTasks
    rw [hfilter, if_neg (by simp)]
    dsimp only
    rw [if_neg (not_or.mpr ⟨hid, hsym⟩), hnone]
  · intro m hm hyd
    unfold coinIncTasks
    rw [hfilter, if_neg (by simp)]
    dsimp only
    rw [if_neg (not_or.mpr ⟨hid, hsym⟩), hm]
    dsimp only
    rw [if_pos (by omega)]
  · intro m hm hyd
    have hlist : coinIncTasks cfg yday maxDates c =
        (incWindows yday (m + 1)).map (fun w =>
          { CoinID := trimS c.ID, Symbol := toUpperS (trimS c.Symbol),
            From := w.1, To := w.2, Retry := 0,
            Phase := .incremental }) := by
      unfold coinIncTasks
      rw [hfilter, if_neg (by simp)]
      dsimp only
      rw [if_neg (not_or.mpr ⟨hid, hsym⟩), hm]
      dsimp only
      rw [if_neg (by omega)]
    obtain ⟨p1, p2, p3, -, p5⟩ := incWindows_props yday (m + 1)
    rw [hlist]
    refine ⟨?_, ?_, ?_, ?_, ?_⟩
    · rw [incWindows_cons (by omega)]; simp
    · intro t ht
      obtain ⟨w, hw, rfl⟩ := List.mem_map.mp ht
      have := p1 w hw
      exact ⟨this.2.1, this.2.2.1⟩
    · rw [List.chain'_map]; exact p3
    · rw [List.pairwise_map]; exact p5
    · intro d
      rw [← p2 d]
      constructor
      · rintro ⟨t, ht, h1, h2⟩
        obtain ⟨w, hw, rfl⟩ := List.mem_map.mp ht
        exact ⟨w, hw, h1, h2⟩
      · rintro ⟨w, hw, h1, h2⟩
        exact ⟨_, List.mem_map_of_mem _ hw, h1, h2⟩

/-- Witness for `incremental_windows_cover` at a concrete coin and store. -/
theorem incremental_windows_cover_witness :
    coinIncTasks ⟨"usd", 0, 2, 30, 3, none⟩ 300
      (fun id => if id = "btc" then some (5 : Int) else none)
      ⟨"btc", "btc", "Bitcoin"⟩ ≠ [] :=
  ((incremental_windows_cover ⟨"usd", 0, 2, 30, 3, none⟩ 300
    (fun id => if id = "btc" then some (5 : Int) else none)
    ⟨"btc", "btc", "Bitcoin"⟩
    (fun f hf => by simp at hf) (by decide) (by decide)).2.2 5
    (by decide) (by decide)).1

/-! Section: The backfill state machine (C1) -/

theorem backfillStateUpdate_done (cfg : Config) (st : CoinState)
    (res : TaskResult) (hD : st.Done = false) :
    (backfillStateUpdate cfg st res).Done = true ↔
      ((backfillStateUpdate cfg st res).SeenData = true ∧
        cfg.EmptyStopBlocks ≤ (backfillStateUpdate cfg st res).ConsecutiveEmpty) ∨
      ((backfillStateUpdate cfg st res).SeenData = false ∧
        cfg.MaxSearchBlocks ≤ (backfillStateUpdate cfg st res).SearchEmpty) := by
  cases hbd : blockHasData res <;> cases hsd : st.SeenData <;>
    simp only [backfillStateUpdate, hbd, hsd, if_true, if_false,
      Bool.false_eq_true, Bool.true_eq_false] <;>
    split_ifs <;> simp_all

theorem backfillStateUpdate_fields (cfg : Config) (st : CoinState)
    (res : TaskResult) :
    (backfillStateUpdate cfg st res).SeenData =
      (blockHasData res || st.SeenData) ∧
    (backfillStateUpdate cfg st res).SearchEmpty =
      (if blockHasData res then 0
       else if st.SeenData then st.SearchEmpty else st.SearchEmpty + 1) ∧
    (backfillStateUpdate cfg st res).ConsecutiveEmpty =
      (if blockHasData res then 0
       else if st.SeenData then st.ConsecutiveEmpty + 1
       else st.ConsecutiveEmpty) := by
  cases hbd : blockHasData res <;> cases hsd : st.SeenData <;>
    simp only [backfillStateUpdate, hbd, hsd, if_true, if_false,
      Bool.false_eq_true, Bool.true_eq_false, Bool.false_or, Bool.true_or] <;>
    split_ifs <;> simp_all

theorem drainCoin_searching (cfg : Config) (h30 : cfg.MaxSearchBlocks = 30) :
    ∀ (l : List TaskResult),
      (∀ r ∈ l, blockHasData r = false ∧ r.MissingDates = []) →
    ∀ (s : CoinState) (k : Nat),
      s.SeenData = false → s.SearchEmpty = min (k : Int) 30 →
      (s.Done = true ↔ 30 ≤ k) →
      (drainCoin cfg s l).SeenData = false ∧
      (drainCoin cfg s l).SearchEmpty = min ((k + l.length : Nat) : Int) 30 ∧
      ((drainCoin cfg s l).Done = true ↔ 30 ≤ k + l.length) := by
  intro l
  induction l with
  | nil =>
    intro _ s k h1 h2 h3
    simpa [drainCoin] using ⟨h1, h2, h3⟩
  | cons r rest ih =>
    intro hl s k h1 h2 h3
    have hr := hl r (List.mem_cons_self _ _)
    have hrest : ∀ r' ∈ rest, blockHasData r' = false ∧ r'.MissingDates = [] :=
      fun r' hr' => hl r' (List.mem_cons_of_mem _ hr')
    have hstep : drainCoin cfg s (r :: rest) =
        drainCoin cfg
          (if s.Done then s
           else if r.MissingDates ≠ [] ∧ r.Task.Retry < cfg.MaxRetriesPerBlock
           then s else backfillStateUpdate cfg s r) rest := rfl
    rw [hstep]
    by_cases hdone : s.Done = true
    · rw [if_pos hdone]
      have hk : 30 ≤ k := h3.mp hdone
      have := ih hrest s (k + 1) h1
        (by rw [h2]; omega)
        (by rw [h3]; omega)
      refine ⟨this.1, ?_, ?_⟩
      · rw [this.2.1]; congr 1; push_cast [List.length_cons]; omega
      · rw [this.2.2]; simp only [List.length_cons]; omega
    · rw [if_neg hdone, if_neg (by simp [hr.2])]
      have hk : ¬ 30 ≤ k := fun h => hdone (h3.mpr h)
      obtain ⟨f1, f2, f3⟩ := backfillStateUpdate_fields cfg s r
      have hseen' : (backfillStateUpdate cfg s r).SeenData = false := by
        rw [f1, hr.1, h1]; rfl
      have hse' : (backfillStateUpdate cfg s r).SearchEmpty =
          min ((k + 1 : Nat) : Int) 30 := by
        rw [f2, hr.1, h1]
        simp only [Bool.false_eq_true, if_false, h2]
        push_cast; omega
      have hdone' : ((backfillStateUpdate cfg s r).Done = true ↔
          30 ≤ k + 1) := by
        rw [backfillStateUpdate_done cfg s r (by simpa using hdone), hseen',
          hse', h30]
        simp only [Bool.false_eq_true, false_and, false_or, true_and]
        constructor
        · intro h; push_cast at h; omega
        · intro h; push_cast; omega
      have := ih hrest _ (k + 1) hseen' hse' hdone'
      refine ⟨this.1, ?_, ?_⟩
      · rw [this.2.1]; congr 1; push_cast [List.length_cons]; omega
      · rw [this.2.2]; simp only [List.length_cons]; omega

/-- C1: after draining a terminal (non-requeued) result, a coin's state is
`Done` exactly when (seen-data ∧ consecutive-empty ≥ EmptyStopBlocks) or
(¬seen-data ∧ search-empty ≥ MaxSearchBlocks); and with MaxSearchBlocks = 30
a coin none of whose window results carries data reaches `Done` with
seen-data = false exactly after 30 empty-window results. -/
theorem backfill_done_iff_thresholds (cfg : Config) (st : CoinState)
    (res : TaskResult) (yday : Int) (l : List TaskResult)
    (hD : st.Done = false) (h30 : cfg.MaxSearchBlocks = 30)
    (hl : ∀ r ∈ l, blockHasData r = false ∧ r.MissingDates = []) :
    ((backfillStateUpdate cfg st res).Done = true ↔
      ((backfillStateUpdate cfg st res).SeenData = true ∧
        cfg.EmptyStopBlocks ≤ (backfillStateUpdate cfg st res).ConsecutiveEmpty) ∨
      ((backfillStateUpdate cfg st res).SeenData = false ∧
        cfg.MaxSearchBlocks ≤ (backfillStateUpdate cfg st res).SearchEmpty)) ∧
    (drainCoin cfg ⟨yday, 0, false, 0, false⟩ l).SeenData = false ∧
    ((drainCoin cfg ⟨yday, 0, false, 0, false⟩ l).Done = true ↔
       30 ≤ l.length) := by
  refine ⟨backfillStateUpdate_done cfg st res hD, ?_⟩
  have := drainCoin_searching cfg h30 l hl ⟨yday, 0, false, 0, false⟩ 0
    rfl (by simp) (by simp)
  exact ⟨this.1, by simpa using this.2.2⟩

/-- Witness for `backfill_done_iff_thresholds`: with the default thresholds,
30 empty-window results drive a fresh coin to `Done`. -/
theorem backfill_done_iff_thresholds_witness :
    (drainCoin ⟨"usd", 0, 2, 30, 3, none⟩ ⟨0, 0, false, 0, false⟩
      (List.replicate 30
        ⟨⟨"c", "C", 0, 1, 0, .backfill⟩, 0, 0, true, 200, "", [], false⟩)).Done
      = true :=
  (backfill_done_iff_thresholds ⟨"usd", 0, 2, 30, 3, none⟩
    ⟨0, 0, false, 0, false⟩
    ⟨⟨"c", "C", 0, 1, 0, .backfill⟩, 0, 0, true, 200, "", [], false⟩ 0 _
    rfl rfl
    (fun r hr => by rw [List.eq_of_mem_replicate hr]; exact ⟨rfl, rfl⟩)).2.2.mpr
    (by simp)

/-! Section: Requeue protocol (C3) -/

theorem handleTaskVerify_err (env : TaskEnv α) (t : Task) (apiDays : List Int)
    (inserted : Int) : (handleTaskVerify env t apiDays inserted).Err = "" := rfl

theorem handleTaskAgg_err_of_missing (cfg : Config) (msOf : α → Int)
    (env : TaskEnv α) (t : Task) (existing : Option (Finset Int))
    (resp : MarketChartRangeResp α)
    (h : (handleTaskAgg cfg msOf env t existing resp).MissingDates ≠ []) :
    (handleTaskAgg cfg msOf env t existing resp).Err = "" := by
  unfold handleTaskAgg at h ⊢
  dsimp only at h ⊢
  by_cases h1 : (aggregate msOf resp).isEmpty = true
  · rw [if_pos h1] at h; simp at h
  · rw [if_neg h1] at h ⊢
    by_cases h2 :
        (toInsertOf t cfg.VsCurrency existing (aggregate msOf resp)).isEmpty
          = true
    · rw [if_pos h2] at h ⊢; exact handleTaskVerify_err ..
    · rw [if_neg h2] at h ⊢
      revert h
      cases hins : env.insErr with
      | some e => intro h; simp at h
      | none => intro h; exact handleTaskVerify_err ..

theorem handleTaskFetch_err_of_missing (cfg : Config) (msOf : α → Int)
    (env : TaskEnv α) (t : Task) (existing : Option (Finset Int))
    (h : (handleTaskFetch cfg msOf env t existing).MissingDates ≠ []) :
    (handleTaskFetch cfg msOf env t existing).Err = "" := by
  unfold handleTaskFetch at h ⊢
  revert h
  cases hfl : fetchLoop env.attempts cfg.MaxRetriesPerBlock with
  | none =>
    intro h
    exact handleTaskAgg_err_of_missing _ _ _ _ _ _ h
  | some a =>
    dsimp only
    cases herr : a.err with
    | some e => intro h; simp at h
    | none =>
      intro h
      exact handleTaskAgg_err_of_missing _ _ _ _ _ _ h

theorem handleTask_err_of_missing (cfg : Config) (msOf : α → Int)
    (env : TaskEnv α) (t : Task)
    (h : (handleTask cfg msOf env t).MissingDates ≠ []) :
    (handleTask cfg msOf env t).Err = "" := by
  unfold handleTask at h ⊢
  dsimp only at h ⊢
  revert h
  cases hpre : env.preQ with
  | some ex =>
    dsimp only
    intro h
    by_cases hc : t.Retry = 0 ∧ ex.card = (daysInclusive t.From t.To).length ∧
        0 < (daysInclusive t.From t.To).length
    · rw [if_pos hc] at h; simp at h
    · rw [if_neg hc] at h ⊢
      exact handleTaskFetch_err_of_missing _ _ _ _ _ h
  | none =>
    intro h
    exact handleTaskFetch_err_of_missing _ _ _ _ _ h

/-- C3: a worker result with a non-empty missing-dates list and retry budget
left is requeued by both schedulers as a copy with retry count + 1, placed
at the front of the pending queue, and the backfill scheduler leaves every
CoinState (and the active map) unchanged for it. -/
theorem requeue_retry_priority (cfg : Config) (msOf : α → Int)
    (env : TaskEnv α) (tk : Task) (states : String → Option CoinState)
    (pending : List Task) (active : String → Option Coin) (st : CoinState)
    (hst : states (handleTask cfg msOf env tk).Task.CoinID = some st)
    (hdone : st.Done = false)
    (hmiss : (handleTask cfg msOf env tk).MissingDates ≠ [])
    (hretry : (handleTask cfg msOf env tk).Task.Retry <
      cfg.MaxRetriesPerBlock) :
    backfillDrainStep cfg states pending active (handleTask cfg msOf env tk) =
      (states, retryTask (handleTask cfg msOf env tk).Task :: pending,
        active) ∧
    incrementalDrainStep cfg pending (handleTask cfg msOf env tk) =
      retryTask (handleTask cfg msOf env tk).Task :: pending := by
  constructor
  · unfold backfillDrainStep
    rw [hst]
    simp [hdone, hmiss, hretry]
  · have herr := handleTask_err_of_missing cfg msOf env tk hmiss
    unfold incrementalDrainStep
    simp [herr, hmiss, hretry]

/-- Witness for `requeue_retry_priority`: a concrete result with one missing
day and retry 0 against max-retries 3. -/
theorem requeue_retry_priority_witness :
    backfillDrainStep ⟨"usd", 0, 2, 30, 3, none⟩
      (fun _ => some ⟨10, 0, false, 0, false⟩) [] (fun _ => none)
      (handleTask ⟨"usd", 0, 2, 30, 3, none⟩ (fun x : Int => x)
        ⟨some ∅, fun _ => ⟨⟨[[0, 5]], [], []⟩, 200, "", none⟩, none, none,
          some ∅, 10⟩
        ⟨"c", "C", 0, 1, 0, .backfill⟩) =
      ((fun _ => some ⟨10, 0, false, 0, false⟩),
       retryTask (handleTask ⟨"usd", 0, 2, 30, 3, none⟩ (fun x : Int => x)
        ⟨some ∅, fun _ => ⟨⟨[[0, 5]], [], []⟩, 200, "", none⟩, none, none,
          some ∅, 10⟩
        ⟨"c", "C", 0, 1, 0, .backfill⟩).Task :: [],
       (fun _ => none)) :=
  (requeue_retry_priority ⟨"usd", 0, 2, 30, 3, none⟩ (fun x : Int => x)
    ⟨some ∅, fun _ => ⟨⟨[[0, 5]], [], []⟩, 200, "", none⟩, none, none,
      some ∅, 10⟩
    ⟨"c", "C", 0, 1, 0, .backfill⟩
    (fun _ => some ⟨10, 0, false, 0, false⟩) [] (fun _ => none)
    ⟨10, 0, false, 0, false⟩ rfl rfl (by decide) (by decide)).1

/-! Section: Fast path (C5) and fetch retry policy (C6) -/

theorem daysInclusive_length {f t : Int} (h : f ≤ t) :
    (daysInclusive f t).length = (t - f + 1).toNat := by
  rw [daysInclusive, if_pos h, List.length_map, List.length_range]

theorem mem_daysInclusive {f t d : Int} :
    d ∈ daysInclusive f t ↔ f ≤ d ∧ d ≤ t := by
  unfold daysInclusive
  by_cases h : f ≤ t
  · rw [if_pos h]
    simp only [List.mem_map, List.mem_range]
    constructor
    · rintro ⟨i, hi, rfl⟩
      omega
    · rintro ⟨h1, h2⟩
      exact ⟨(d - f).toNat, by omega, by omega⟩
  · rw [if_neg h]
    simp only [List.not_mem_nil, false_iff]
    omega

/-- C5: a retry-0 task whose window is fully present in the store (and whose
present-days query succeeded) short-circuits with inserted = 0 and
empty = false, and the result does not depend on the fetch oracle at all. -/
theorem fastpath_no_fetch (cfg : Config) (msOf : α → Int) (env : TaskEnv α)
    (t : Task) (ex : Finset Int)
    (hpre : env.preQ = some ex) (hex : ex = Finset.Icc t.From t.To)
    (hr : t.Retry = 0) (hft : t.From ≤ t.To) :
    handleTask cfg msOf env t =
      { Task := t, Inserted := 0, APIDays := 0, Empty := false,
        HTTPStatus := 200, Err := "", MissingDates := [],
        ActiveNow := false } ∧
    (∀ att : Nat → FetchAttempt α,
      handleTask cfg msOf { env with attempts := att } t =
        handleTask cfg msOf env t) := by
  have hcard : ex.card = (daysInclusive t.From t.To).length := by
    rw [hex, daysInclusive_length hft, Int.card_Icc]
    congr 1
    omega
  have hpos : 0 < (daysInclusive t.From t.To).length := by
    rw [daysInclusive_length hft]
    omega
  have key : ∀ env' : TaskEnv α, env'.preQ = some ex →
      handleTask cfg msOf env' t =
        { Task := t, Inserted := 0, APIDays := 0, Empty := false,
          HTTPStatus := 200, Err := "", MissingDates := [],
          ActiveNow := false } := by
    intro env' hpre'
    unfold handleTask
    rw [hpre']
    dsimp only
    rw [if_pos ⟨hr, hcard, hpos⟩]
  refine ⟨key env hpre, fun att => ?_⟩
  rw [key env hpre, key { env with attempts := att } hpre]

/-- Witness for `fastpath_no_fetch`: a 3-day window fully present. -/
theorem fastpath_no_fetch_witness :
    handleTask ⟨"usd", 0, 2, 30, 3, none⟩ (fun x : Int => x)
      ⟨some (Finset.Icc 4 6),
        fun _ => ⟨⟨[[0, 5]], [], []⟩, 200, "", none⟩, none, none, none, 10⟩
      ⟨"c", "C", 4, 6, 0, .backfill⟩ =
      { Task := ⟨"c", "C", 4, 6, 0, .backfill⟩, Inserted := 0, APIDays := 0,
        Empty := false, HTTPStatus := 200, Err := "", MissingDates := [],
        ActiveNow := false } :=
  (fastpath_no_fetch ⟨"usd", 0, 2, 30, 3, none⟩ (fun x : Int => x)
    ⟨some (Finset.Icc 4 6),
      fun _ => ⟨⟨[[0, 5]], [], []⟩, 200, "", none⟩, none, none, none, 10⟩
    ⟨"c", "C", 4, 6, 0, .backfill⟩ (Finset.Icc 4 6)
    rfl rfl rfl (by decide)).1

theorem fetchLoopIdx_spec (attempts : Nat → FetchAttempt α) :
    ∀ fuel i : Nat,
      i ≤ fetchLoopIdx attempts fuel i ∧
      fetchLoopIdx attempts fuel i ≤ i + fuel ∧
      (∀ j, i ≤ j → j < fetchLoopIdx attempts fuel i →
        (attempts j).err ≠ none ∧
        isRetryableStatus (attempts j).status = true) := by
  intro fuel
  induction fuel with
  | zero =>
    intro i
    have hidx : fetchLoopIdx attempts 0 i = i := by
      unfold fetchLoopIdx
      dsimp only
      split_ifs <;> rfl
    rw [hidx]
    exact ⟨le_refl _, by omega, fun j h1 h2 => absurd h2 (by omega)⟩
  | succ fuel ih =>
    intro i
    by_cases h1 : (attempts i).err = none
    · have hidx : fetchLoopIdx attempts (fuel + 1) i = i := by
        unfold fetchLoopIdx
        simp [h1]
      rw [hidx]
      exact ⟨le_refl _, by omega, fun j hj1 hj2 => absurd hj2 (by omega)⟩
    · by_cases h2 : isRetryableStatus (attempts i).status = false
      · have hidx : fetchLoopIdx attempts (fuel + 1) i = i := by
          unfold fetchLoopIdx
          simp [h1, h2]
        rw [hidx]
        exact ⟨le_refl _, by omega, fun j hj1 hj2 => absurd hj2 (by omega)⟩
      · have hidx : fetchLoopIdx attempts (fuel + 1) i =
            fetchLoopIdx attempts fuel (i + 1) := by
          conv_lhs => rw [fetchLoopIdx]
          simp [h1, h2]
        obtain ⟨a1, a2, a3⟩ := ih (i + 1)
        rw [hidx]
        refine ⟨by omega, by omega, ?_⟩
        intro j hj1 hj2
        rcases eq_or_lt_of_le hj1 with rfl | hlt
        · exact ⟨h1, by simpa using h2⟩
        · exact a3 j (by omega) hj2

/-- C6: the fetch loop retries a failed attempt only on a retryable status
(0/408/425/429/500/502/503/504) with budget remaining, and when the final
attempt still fails the task yields empty = true with the error recorded,
inserted = 0 and API-day-count = 0, touching neither the insert nor the
verification oracles. -/
theorem fetch_retry_policy (cfg : Config) (msOf : α → Int) (env : TaskEnv α)
    (t : Task) (e : String)
    (hmax : 0 ≤ cfg.MaxRetriesPerBlock)
    (hnf : ∀ ex, env.preQ = some ex →
      ¬(t.Retry = 0 ∧ ex.card = (daysInclusive t.From t.To).length ∧
        0 < (daysInclusive t.From t.To).length))
    (herr : (env.attempts
        (fetchLoopIdx env.attempts cfg.MaxRetriesPerBlock.toNat 0)).err =
        some e) :
    (∀ c : Int, isRetryableStatus c = true ↔
      (c = 0 ∨ c = 408 ∨ c = 425 ∨ c = 429 ∨ c = 500 ∨ c = 502 ∨
       c = 503 ∨ c = 504)) ∧
    ((fetchLoopIdx env.attempts cfg.MaxRetriesPerBlock.toNat 0 : Int) ≤
      cfg.MaxRetriesPerBlock) ∧
    (∀ j < fetchLoopIdx env.attempts cfg.MaxRetriesPerBlock.toNat 0,
      (env.attempts j).err ≠ none ∧
      isRetryableStatus (env.attempts j).status = true) ∧
    handleTask cfg msOf env t =
      { Task := t, Inserted := 0, APIDays := 0, Empty := true,
        HTTPStatus := (env.attempts
          (fetchLoopIdx env.attempts cfg.MaxRetriesPerBlock.toNat 0)).status,
        Err := e ++ "; body=" ++ truncate (env.attempts
          (fetchLoopIdx env.attempts cfg.MaxRetriesPerBlock.toNat 0)).body 300,
        MissingDates := [], ActiveNow := false } := by
  obtain ⟨s1, s2, s3⟩ := fetchLoopIdx_spec env.attempts
    cfg.MaxRetriesPerBlock.toNat 0
  refine ⟨?_, ?_, ?_, ?_⟩
  · intro c
    unfold isRetryableStatus
    split_ifs <;> simp_all
  · omega
  · intro j hj
    exact s3 j (Nat.zero_le _) hj
  · have hfl : fetchLoop env.attempts cfg.MaxRetriesPerBlock =
        some (env.attempts
          (fetchLoopIdx env.attempts cfg.MaxRetriesPerBlock.toNat 0)) := by
      unfold fetchLoop
      rw [if_neg (by omega)]
    have key : ∀ existing : Option (Finset Int),
        handleTaskFetch cfg msOf env t existing =
        { Task := t, Inserted := 0, APIDays := 0, Empty := true,
          HTTPStatus := (env.attempts
            (fetchLoopIdx env.attempts cfg.MaxRetriesPerBlock.toNat 0)).status,
          Err := e ++ "; body=" ++ truncate (env.attempts
            (fetchLoopIdx env.attempts cfg.MaxRetriesPerBlock.toNat 0)).body
            300,
          MissingDates := [], ActiveNow := false } := by
      intro existing
      unfold handleTaskFetch
      rw [hfl]
      dsimp only
      rw [herr]
    unfold handleTask
    cases hpre : env.preQ with
    | some ex =>
      dsimp only
      rw [if_neg (hnf ex hpre)]
      exact key _
    | none =>
      dsimp only
      exact key _

/-- Witness for `fetch_retry_policy`: one retryable 500 failure followed by a
permanent 404. -/
theorem fetch_retry_policy_witness :
    handleTask ⟨"usd", 0, 2, 30, 3, none⟩ (fun x : Int => x)
      ⟨none,
        fun n => if n = 0 then ⟨⟨[], [], []⟩, 500, "", some "boom"⟩
                 else ⟨⟨[], [], []⟩, 404, "", some "nf"⟩,
        none, none, none, 10⟩
      ⟨"c", "C", 0, 1, 0, .backfill⟩ =
      { Task := ⟨"c", "C", 0, 1, 0, .backfill⟩, Inserted := 0, APIDays := 0,
        Empty := true, HTTPStatus := 404, Err := "nf; body=",
        MissingDates := [], ActiveNow := false } :=
  (fetch_retry_policy ⟨"usd", 0, 2, 30, 3, none⟩ (fun x : Int => x)
    ⟨none,
      fun n => if n = 0 then ⟨⟨[], [], []⟩, 500, "", some "boom"⟩
               else ⟨⟨[], [], []⟩, 404, "", some "nf"⟩,
      none, none, none, 10⟩
    ⟨"c", "C", 0, 1, 0, .backfill⟩ "nf" (by decide)
    (fun ex hx => by simp at hx) (by decide)).2.2.2

/-! Section: The success path: diff and verification (C2, C9, C10) -/

theorem handleTaskVerify_missing (env : TaskEnv α) (t : Task)
    (apiDays : List Int) (inserted : Int) :
    (handleTaskVerify env t apiDays inserted).MissingDates =
      match env.postQ with
      | some aft =>
        (apiDays.filter (fun d => decide (d ∉ aft))).insertionSort (· ≤ ·)
      | none => [] := rfl

theorem handleTaskVerify_activeNow (env : TaskEnv α) (t : Task)
    (apiDays : List Int) (inserted : Int) :
    (handleTaskVerify env t apiDays inserted).ActiveNow =
      if t.To = env.yday ∨ env.yday - 2 < t.To
      then decide (env.yday - 2 ≤ apiDays.getLastD 0)
      else false := rfl

theorem handleTask_not_fast (cfg : Config) (msOf : α → Int) (env : TaskEnv α)
    (t : Task)
    (hnf : ∀ ex, env.preQ = some ex →
      ¬(t.Retry = 0 ∧ ex.card = (daysInclusive t.From t.To).length ∧
        0 < (daysInclusive t.From t.To).length)) :
    handleTask cfg msOf env t = handleTaskFetch cfg msOf env t
      (match env.preQ with
       | some ex => some ex
       | none => env.midQ) := by
  unfold handleTask
  cases hpre : env.preQ with
  | some ex =>
    dsimp only
    rw [if_neg (hnf ex hpre)]
  | none => rfl

theorem handleTaskFetch_success (cfg : Config) (msOf : α → Int)
    (env : TaskEnv α) (t : Task) (existing : Option (Finset Int))
    (hmax : 0 ≤ cfg.MaxRetriesPerBlock)
    (hf : (lastAttempt env cfg.MaxRetriesPerBlock).err = none)
    (hins : env.insErr = none) :
    (handleTaskFetch cfg msOf env t existing).Err = "" ∧
    (handleTaskFetch cfg msOf env t existing).MissingDates =
      (match env.postQ with
       | some aft =>
         ((sortedDays (aggregate msOf
             (lastAttempt env cfg.MaxRetriesPerBlock).resp)).filter
           (fun d => decide (d ∉ aft))).insertionSort (· ≤ ·)
       | none => []) ∧
    ((aggregate msOf (lastAttempt env cfg.MaxRetriesPerBlock).resp).isEmpty
        = false →
      (handleTaskFetch cfg msOf env t existing).ActiveNow =
        if t.To = env.yday ∨ env.yday - 2 < t.To
        then decide (env.yday - 2 ≤ (sortedDays (aggregate msOf
          (lastAttempt env cfg.MaxRetriesPerBlock).resp)).getLastD 0)
        else false) := by
  have hfl : fetchLoop env.attempts cfg.MaxRetriesPerBlock =
      some (lastAttempt env cfg.MaxRetriesPerBlock) := by
    unfold fetchLoop lastAttempt
    rw [if_neg (by omega)]
  unfold handleTaskFetch
  rw [hfl]
  dsimp only
  rw [hf]
  unfold handleTaskAgg
  dsimp only
  by_cases hA : (aggregate msOf
      (lastAttempt env cfg.MaxRetriesPerBlock).resp).isEmpty
  · rw [if_pos hA]
    have hA' : aggregate msOf (lastAttempt env cfg.MaxRetriesPerBlock).resp
        = [] := List.isEmpty_iff.mp hA
    refine ⟨rfl, ?_, ?_⟩
    · cases hpq : env.postQ <;> simp [hA', sortedDays, keysOf]
    · intro hcon
      rw [hA] at hcon
      cases hcon
  · rw [if_neg hA]
    by_cases hI : (toInsertOf t cfg.VsCurrency existing
        (aggregate msOf (lastAttempt env cfg.MaxRetriesPerBlock).resp)).isEmpty
    · rw [if_pos hI]
      exact ⟨handleTaskVerify_err .., handleTaskVerify_missing ..,
        fun _ => handleTaskVerify_activeNow ..⟩
    · rw [if_neg hI, hins]
      exact ⟨handleTaskVerify_err .., handleTaskVerify_missing ..,
        fun _ => handleTaskVerify_activeNow ..⟩

/-- C2: with a successful pre-insert query, the days selected for insertion
are exactly the aggregated API days not already present; and with a
successful insert and post-insert re-query, missing-dates is the sorted
list of aggregated API days not present after the write. -/
theorem handleTask_diff_correctness (cfg : Config) (msOf : α → Int)
    (env : TaskEnv α) (t : Task) (ex aft : Finset Int)
    (hpre : env.preQ = some ex)
    (hnf : ¬(t.Retry = 0 ∧ ex.card = (daysInclusive t.From t.To).length ∧
        0 < (daysInclusive t.From t.To).length))
    (hmax : 0 ≤ cfg.MaxRetriesPerBlock)
    (hf : (lastAttempt env cfg.MaxRetriesPerBlock).err = none)
    (hins : env.insErr = none)
    (hpost : env.postQ = some aft) :
    (∀ d : Int, d ∈ toInsertDays (some ex)
        (sortedDays (aggregate msOf
          (lastAttempt env cfg.MaxRetriesPerBlock).resp)) ↔
      (d ∈ sortedDays (aggregate msOf
          (lastAttempt env cfg.MaxRetriesPerBlock).resp) ∧ d ∉ ex)) ∧
    (∀ d : Int, d ∈ (handleTask cfg msOf env t).MissingDates ↔
      (d ∈ sortedDays (aggregate msOf
          (lastAttempt env cfg.MaxRetriesPerBlock).resp) ∧ d ∉ aft)) ∧
    (handleTask cfg msOf env t).MissingDates.Sorted (· ≤ ·) := by
  have hnf' : ∀ ex', env.preQ = some ex' →
      ¬(t.Retry = 0 ∧ ex'.card = (daysInclusive t.From t.To).length ∧
        0 < (daysInclusive t.From t.To).length) := by
    intro ex' h'
    rw [hpre] at h'
    injection h' with h''
    rw [← h'']
    exact hnf
  have hht := handleTask_not_fast cfg msOf env t hnf'
  obtain ⟨s1, s2, s3⟩ := handleTaskFetch_success cfg msOf env t
    (match env.preQ with
     | some ex => some ex
     | none => env.midQ) hmax hf hins
  rw [hpost] at s2
  refine ⟨?_, ?_, ?_⟩
  · intro d
    simp [toInsertDays, dayPresent, List.mem_filter]
  · intro d
    rw [hht, s2]
    rw [List.Perm.mem_iff (List.perm_insertionSort _ _)]
    simp [List.mem_filter]
  · rw [hht, s2]
    exact List.sorted_insertionSort _ _

/-- Witness for `handleTask_diff_correctness` at a concrete task. -/
theorem handleTask_diff_correctness_witness :
    (handleTask ⟨"usd", 0, 2, 30, 3, none⟩ (fun x : Int => x)
      ⟨some ∅, fun _ => ⟨⟨[[0, 5]], [], []⟩, 200, "", none⟩, none, none,
        some ∅, 10⟩
      ⟨"c", "C", 0, 1, 0, .backfill⟩).MissingDates.Sorted (· ≤ ·) :=
  (handleTask_diff_correctness ⟨"usd", 0, 2, 30, 3, none⟩ (fun x : Int => x)
    ⟨some ∅, fun _ => ⟨⟨[[0, 5]], [], []⟩, 200, "", none⟩, none, none,
      some ∅, 10⟩
    ⟨"c", "C", 0, 1, 0, .backfill⟩ ∅ ∅ rfl (by decide) (by decide) (by decide)
    rfl rfl).2.2

theorem backfillDrainStep_pending_of_nil (cfg : Config)
    (states : String → Option CoinState) (pending : List Task)
    (active : String → Option Coin) (res : TaskResult)
    (h : res.MissingDates = []) :
    (backfillDrainStep cfg states pending active res).2.1 = pending := by
  unfold backfillDrainStep
  cases states res.Task.CoinID with
  | none => rfl
  | some st =>
    dsimp only
    split_ifs with h1 h2 h3
    · rfl
    · exact absurd h2.1 (by simp [h])
    · rfl
    · rfl

theorem incrementalDrainStep_of_nil (cfg : Config) (pending : List Task)
    (res : TaskResult) (h : res.MissingDates = []) :
    incrementalDrainStep cfg pending res = pending := by
  unfold incrementalDrainStep
  split_ifs with h1 h2
  · rfl
  · exact absurd h2.1 (by simp [h])
  · rfl

/-- C10: when the post-insert verification re-query fails, the result
carries an empty missing-dates list and no error text, so neither scheduler
requeues the window. -/
theorem postverify_fail_reconciled (cfg : Config) (msOf : α → Int)
    (env : TaskEnv α) (t : Task)
    (hnf : ∀ ex, env.preQ = some ex →
      ¬(t.Retry = 0 ∧ ex.card = (daysInclusive t.From t.To).length ∧
        0 < (daysInclusive t.From t.To).length))
    (hmax : 0 ≤ cfg.MaxRetriesPerBlock)
    (hf : (lastAttempt env cfg.MaxRetriesPerBlock).err = none)
    (hins : env.insErr = none)
    (hpost : env.postQ = none) :
    (handleTask cfg msOf env t).MissingDates = [] ∧
    (handleTask cfg msOf env t).Err = "" ∧
    (∀ (states : String → Option CoinState) (pending : List Task)
        (active : String → Option Coin),
      (backfillDrainStep cfg states pending active
        (handleTask cfg msOf env t)).2.1 = pending) ∧
    (∀ pending : List Task,
      incrementalDrainStep cfg pending (handleTask cfg msOf env t) =
        pending) := by
  have hht := handleTask_not_fast cfg msOf env t hnf
  obtain ⟨s1, s2, s3⟩ := handleTaskFetch_success cfg msOf env t
    (match env.preQ with
     | some ex => some ex
     | none => env.midQ) hmax hf hins
  rw [hpost] at s2
  have hnil : (handleTask cfg msOf env t).MissingDates = [] := by
    rw [hht]; exact s2
  refine ⟨hnil, by rw [hht]; exact s1, ?_, ?_⟩
  · intro states pending active
    exact backfillDrainStep_pending_of_nil cfg states pending active _ hnil
  · intro pending
    exact incrementalDrainStep_of_nil cfg pending _ hnil

/-- Witness for `postverify_fail_reconciled`: a failed verification query on
a window whose rows were just inserted. -/
theorem postverify_fail_reconciled_witness :
    (handleTask ⟨"usd", 0, 2, 30, 3, none⟩ (fun x : Int => x)
      ⟨some ∅, fun _ => ⟨⟨[[0, 5]], [], []⟩, 200, "", none⟩, none, none,
        none, 10⟩
      ⟨"c", "C", 0, 1, 0, .backfill⟩).MissingDates = [] :=
  (postverify_fail_reconciled ⟨"usd", 0, 2, 30, 3, none⟩ (fun x : Int => x)
    ⟨some ∅, fun _ => ⟨⟨[[0, 5]], [], []⟩, 200, "", none⟩, none, none,
      none, 10⟩
    ⟨"c", "C", 0, 1, 0, .backfill⟩
    (fun ex hx => by injection hx with hx'; rw [← hx']; decide)
    (by decide) (by decide) rfl rfl).1

/-! Section: The active-now liveness tag (C9) -/

/-- Counterexample to the claim that active-now is set exactly when both the
window end and the maximum aggregated day are within 2 days of yesterday:
with yesterday = 10, a window ending on day 8 (2 days before yesterday)
whose maximum aggregated day is 8 satisfies both 2-day tolerances, yet
handleTask leaves active-now false, because the code requires the window end
to be *strictly* after yesterday − 2 (or equal to yesterday). -/
theorem activeNow_two_day_claim_false :
    (handleTask ⟨"usd", 0, 2, 30, 3, none⟩ (fun x : Int => x)
      ⟨some ∅, fun _ => ⟨⟨[[691200000, 1]], [], []⟩, 200, "", none⟩, none,
        none, none, 10⟩
      ⟨"c", "C", 7, 8, 0, .backfill⟩).ActiveNow = false ∧
    ((0 : Int) ≤ 10 - (8 : Int) ∧ (10 : Int) - 8 ≤ 2) ∧
    (sortedDays (aggregate (fun x : Int => x)
        ⟨[[691200000, 1]], [], []⟩)).getLastD 0 = 8 ∧
    ((0 : Int) ≤ 10 - (8 : Int) ∧ (10 : Int) - 8 ≤ 2) := by
  refine ⟨by decide, by decide, by decide, by decide⟩

/-- C9 (amended): on the success path, handleTask sets active-now = true
exactly when the task's To date is yesterday or strictly after yesterday − 2
(within 1 day of yesterday) and the maximum aggregated day is at least
yesterday − 2 (within 2 days of yesterday). -/
theorem activeNow_iff_amended (cfg : Config) (msOf : α → Int)
    (env : TaskEnv α) (t : Task)
    (hnf : ∀ ex, env.preQ = some ex →
      ¬(t.Retry = 0 ∧ ex.card = (daysInclusive t.From t.To).length ∧
        0 < (daysInclusive t.From t.To).length))
    (hmax : 0 ≤ cfg.MaxRetriesPerBlock)
    (hf : (lastAttempt env cfg.MaxRetriesPerBlock).err = none)
    (hins : env.insErr = none)
    (hagg : (aggregate msOf
        (lastAttempt env cfg.MaxRetriesPerBlock).resp).isEmpty = false) :
    (handleTask cfg msOf env t).ActiveNow = true ↔
      ((t.To = env.yday ∨ env.yday - 2 < t.To) ∧
        env.yday - 2 ≤ (sortedDays (aggregate msOf
          (lastAttempt env cfg.MaxRetriesPerBlock).resp)).getLastD 0) := by
  have hht := handleTask_not_fast cfg msOf env t hnf
  obtain ⟨-, -, s3⟩ := handleTaskFetch_success cfg msOf env t
    (match env.preQ with
     | some ex => some ex
     | none => env.midQ) hmax hf hins
  rw [hht, s3 hagg]
  split_ifs with hcond
  · simp [hcond]
  · simp [hcond]

/-- Witness for `activeNow_iff_amended`: a window ending on yesterday with a
fresh maximum aggregated day is tagged active. -/
theorem activeNow_iff_amended_witness :
    (handleTask ⟨"usd", 0, 2, 30, 3, none⟩ (fun x : Int => x)
      ⟨some ∅, fun _ => ⟨⟨[[691200000, 1]], [], []⟩, 200, "", none⟩, none,
        none, none, 10⟩
      ⟨"c", "C", 7, 10, 0, .backfill⟩).ActiveNow = true :=
  (activeNow_iff_amended ⟨"usd", 0, 2, 30, 3, none⟩ (fun x : Int => x)
    ⟨some ∅, fun _ => ⟨⟨[[691200000, 1]], [], []⟩, 200, "", none⟩, none,
      none, none, 10⟩
    ⟨"c", "C", 7, 10, 0, .backfill⟩
    (fun ex hx => by injection hx with hx'; rw [← hx']; decide)
    (by decide) (by decide) rfl (by decide)).mpr (by decide)

/-! Section: Aggregation: one record per day, last sample wins (C7) -/

theorem lookupA_upsertDay_self (m : List (Int × DailyAgg α)) (day : Int)
    (g : Option (DailyAgg α) → DailyAgg α) :
    lookupA (upsertDay m day g) day = some (g (lookupA m day)) := by
  induction m with
  | nil => simp [upsertDay, lookupA]
  | cons hd tl ih =>
    obtain ⟨d, a⟩ := hd
    by_cases hd2 : d = day
    · subst hd2
      simp [upsertDay, lookupA]
    · simp [upsertDay, lookupA, hd2, ih]

theorem lookupA_upsertDay_ne (m : List (Int × DailyAgg α)) (day day' : Int)
    (g : Option (DailyAgg α) → DailyAgg α) (h : day' ≠ day) :
    lookupA (upsertDay m day' g) day = lookupA m day := by
  induction m with
  | nil => simp [upsertDay, lookupA, h]
  | cons hd tl ih =>
    obtain ⟨d, a⟩ := hd
    by_cases hd2 : d = day'
    · subst hd2
      simp [upsertDay, lookupA, h, ih]
    · by_cases hd3 : d = day <;>
        simp [upsertDay, lookupA, hd2, hd3, ih, Ne.symm h]

theorem keysOf_upsertDay (m : List (Int × DailyAgg α)) (day : Int)
    (g : Option (DailyAgg α) → DailyAgg α) :
    keysOf (upsertDay m day g) =
      if day ∈ keysOf m then keysOf m else keysOf m ++ [day] := by
  induction m with
  | nil => simp [upsertDay, keysOf]
  | cons hd tl ih =>
    obtain ⟨d, a⟩ := hd
    by_cases hd2 : d = day
    · subst hd2
      simp [upsertDay, keysOf]
    · simp only [keysOf, List.map_cons] at ih ⊢
      rw [upsertDay, if_neg hd2, List.map_cons, ih]
      by_cases hmem : day ∈ tl.map Prod.fst
      · rw [if_pos hmem,
          if_pos (show day ∈ d :: tl.map Prod.fst by simp [hmem])]
      · rw [if_neg hmem,
          if_neg (show day ∉ d :: tl.map Prod.fst by
            simp [hmem, Ne.symm hd2]),
          List.cons_append]

theorem nodup_keys_upsertDay (m : List (Int × DailyAgg α)) (day : Int)
    (g : Option (DailyAgg α) → DailyAgg α) (h : (keysOf m).Nodup) :
    (keysOf (upsertDay m day g)).Nodup := by
  rw [keysOf_upsertDay]
  split_ifs with hm
  · exact h
  · simp [List.nodup_append, h, hm]

theorem lookupA_applyRow_spec (msOf : α → Int) (kind : Metric)
    (m : List (Int × DailyAgg α)) (row : List α) (day : Int) :
    lookupA (applyRow msOf kind m row) day =
      match samplesOfRow msOf day row with
      | some s => some (applySample kind (lookupA m day) s)
      | none => lookupA m day := by
  cases row with
  | nil => simp [applyRow, samplesOfRow]
  | cons t0 rest =>
    cases rest with
    | nil => simp [applyRow, samplesOfRow]
    | cons v0 rest2 =>
      dsimp only [applyRow, samplesOfRow]
      by_cases hd : Int.fdiv (msOf t0) msPerDay = day
      · rw [if_pos hd, hd, lookupA_upsertDay_self]
        rfl
      · rw [if_neg hd, lookupA_upsertDay_ne _ _ _ _ hd]

theorem lookupA_applySeries (msOf : α → Int) (kind : Metric)
    (rows : List (List α)) :
    ∀ (m : List (Int × DailyAgg α)) (day : Int),
      lookupA (applySeries msOf kind m rows) day =
        foldSamples kind (lookupA m day) (samplesOf msOf rows day) := by
  induction rows with
  | nil => intro m day; rfl
  | cons row rest ih =>
    intro m day
    have h1 : applySeries msOf kind m (row :: rest) =
        applySeries msOf kind (applyRow msOf kind m row) rest := rfl
    rw [h1, ih, lookupA_applyRow_spec]
    cases hs : samplesOfRow msOf day row with
    | none => simp [samplesOf, List.filterMap_cons, hs]
    | some s => simp [samplesOf, List.filterMap_cons, hs, foldSamples]

theorem keysOf_applyRow (msOf : α → Int) (kind : Metric)
    (m : List (Int × DailyAgg α)) (row : List α)
    (h : (keysOf m).Nodup) : (keysOf (applyRow msOf kind m row)).Nodup := by
  cases row with
  | nil => exact h
  | cons t0 rest =>
    cases rest with
    | nil => exact h
    | cons v0 rest2 => exact nodup_keys_upsertDay _ _ _ h

theorem nodup_keys_applySeries (msOf : α → Int) (kind : Metric)
    (rows : List (List α)) :
    ∀ m : List (Int × DailyAgg α), (keysOf m).Nodup →
      (keysOf (applySeries msOf kind m rows)).Nodup := by
  induction rows with
  | nil => intro m h; exact h
  | cons row rest ih =>
    intro m h
    exact ih _ (keysOf_applyRow _ _ _ _ h)

theorem lookupA_isSome_iff_mem (m : List (Int × DailyAgg α)) (day : Int) :
    (lookupA m day).isSome = true ↔ day ∈ keysOf m := by
  induction m with
  | nil => simp [lookupA, keysOf]
  | cons hd tl ih =>
    obtain ⟨d, a⟩ := hd
    by_cases hd2 : d = day
    · subst hd2; simp [lookupA, keysOf]
    · simp [lookupA, keysOf, hd2, Ne.symm hd2, ih]

theorem foldSamples_ne_none (kind : Metric) :
    ∀ (ss : List (Int × α)) (a : DailyAgg α),
      foldSamples kind (some a) ss ≠ none := by
  intro ss
  induction ss with
  | nil => intro a h; cases h
  | cons s rest ih => intro a; exact ih _

theorem foldSamples_eq_none_iff (kind : Metric)
    (old : Option (DailyAgg α)) (ss : List (Int × α)) :
    foldSamples kind old ss = none ↔ (old = none ∧ ss = []) := by
  cases ss with
  | nil =>
    simp only [foldSamples, List.foldl_nil, and_true]
  | cons s rest =>
    constructor
    · intro h
      exact absurd h (foldSamples_ne_none kind rest (applySample kind old s))
    · rintro ⟨-, h⟩
      cases h

theorem setMetric_ts (a : DailyAgg α) (k : Metric) (v : α) :
    (setMetric a k v).ts = a.ts := by
  cases k <;> rfl

theorem getMetric_setMetric_same (a : DailyAgg α) (k : Metric) (v : α) :
    getMetric (setMetric a k v) k = v := by
  cases k <;> rfl

theorem getMetric_setMetric_other (a : DailyAgg α) (k k' : Metric) (v : α)
    (h : k' ≠ k) : getMetric (setMetric a k v) k' = getMetric a k' := by
  cases k <;> cases k' <;> first | rfl | exact absurd rfl h

theorem getMetric_tsSet (a : DailyAgg α) (x : Int) (k : Metric) :
    getMetric { a with ts := x } k = getMetric a k := by
  cases k <;> rfl

theorem getMetric_applySample_same (kind : Metric)
    (old : Option (DailyAgg α)) (s : Int × α) :
    getMetric (applySample kind old s) kind = s.2 := by
  unfold applySample
  dsimp only
  exact getMetric_setMetric_same ..

theorem getMetric_applySample_other (kind kind' : Metric)
    (old : Option (DailyAgg α)) (s : Int × α) (h : kind' ≠ kind) :
    getMetric (applySample kind old s) kind' = getM old kind' := by
  unfold applySample getM
  cases old with
  | none =>
    dsimp only [Option.getD]
    rw [getMetric_setMetric_other _ _ _ _ h]
    split_ifs <;> cases kind' <;> rfl
  | some a =>
    dsimp only [Option.getD]
    rw [getMetric_setMetric_other _ _ _ _ h]
    split_ifs with hts
    · rw [getMetric_tsSet]
    · rfl

theorem applySample_ts (kind : Metric) (old : Option (DailyAgg α))
    (s : Int × α) :
    (applySample kind old s).ts =
      match tsM old with
      | none => s.1
      | some x => if x < s.1 then s.1 else x := by
  unfold applySample tsM
  cases old with
  | none =>
    dsimp only [Option.getD, Option.map]
    rw [setMetric_ts]
    simp
  | some a =>
    dsimp only [Option.getD, Option.map]
    rw [setMetric_ts]
    split_ifs <;> rfl

theorem getM_foldSamples_same (kind : Metric) :
    ∀ (ss : List (Int × α)) (old : Option (DailyAgg α)),
      getM (foldSamples kind old ss) kind =
        (ss.map Prod.snd).getLastD (getM old kind) := by
  intro ss
  induction ss with
  | nil => intro old; rfl
  | cons s rest ih =>
    intro old
    have h1 : foldSamples kind old (s :: rest) =
        foldSamples kind (some (applySample kind old s)) rest := rfl
    rw [h1, ih]
    have h2 : getM (some (applySample kind old s)) kind = s.2 :=
      getMetric_applySample_same ..
    rw [h2, List.map_cons, List.getLastD_cons]

theorem getM_foldSamples_other (kind kind' : Metric) (h : kind' ≠ kind) :
    ∀ (ss : List (Int × α)) (old : Option (DailyAgg α)),
      getM (foldSamples kind old ss) kind' = getM old kind' := by
  intro ss
  induction ss with
  | nil => intro old; rfl
  | cons s rest ih =>
    intro old
    have h1 : foldSamples kind old (s :: rest) =
        foldSamples kind (some (applySample kind old s)) rest := rfl
    rw [h1, ih]
    exact getMetric_applySample_other _ _ _ _ h

theorem tsM_foldSamples (kind : Metric) :
    ∀ (ss : List (Int × α)) (old : Option (DailyAgg α)),
      tsM (foldSamples kind old ss) = mfold (tsM old) (ss.map Prod.fst) := by
  intro ss
  induction ss with
  | nil => intro old; rfl
  | cons s rest ih =>
    intro old
    have h1 : foldSamples kind old (s :: rest) =
        foldSamples kind (some (applySample kind old s)) rest := rfl
    rw [h1, ih]
    have hr : mfold (tsM old) ((s :: rest).map Prod.fst) =
        mfold (some (match tsM old with
          | none => s.1
          | some x => if x < s.1 then s.1 else x)) (rest.map Prod.fst) := rfl
    rw [hr]
    congr 1
    simp [tsM, applySample_ts]

theorem mfold_max :
    ∀ (l : List Int) (o : Option Int) (x : Int), mfold o l = some x →
      ((x ∈ l ∨ o = some x) ∧ (∀ y ∈ l, y ≤ x) ∧
        (∀ z, o = some z → z ≤ x)) := by
  intro l
  induction l with
  | nil =>
    intro o x h
    simp only [mfold, List.foldl_nil] at h
    exact ⟨Or.inr h, by simp, fun z hz => by rw [h] at hz; injection hz with hz; omega⟩
  | cons ms rest ih =>
    intro o x h
    cases o with
    | none =>
      have h' : mfold (some ms) rest = some x := h
      obtain ⟨m1, m2, m3⟩ := ih _ x h'
      have hms : ms ≤ x := m3 ms rfl
      refine ⟨?_, ?_, fun z hz => by cases hz⟩
      · rcases m1 with h1 | h1
        · exact Or.inl (List.mem_cons_of_mem _ h1)
        · injection h1 with h1
          exact Or.inl (by rw [← h1]; exact List.mem_cons_self _ _)
      · intro y hy
        rcases List.mem_cons.mp hy with rfl | hy
        · exact hms
        · exact m2 y hy
    | some z =>
      have h' : mfold (some (if z < ms then ms else z)) rest = some x := h
      obtain ⟨m1, m2, m3⟩ := ih _ x h'
      have hw : (if z < ms then ms else z) ≤ x := m3 _ rfl
      have hmw : ms ≤ (if z < ms then ms else z) := by split_ifs <;> omega
      have hzw : z ≤ (if z < ms then ms else z) := by split_ifs <;> omega
      refine ⟨?_, ?_, ?_⟩
      · rcases m1 with h1 | h1
        · exact Or.inl (List.mem_cons_of_mem _ h1)
        · injection h1 with h1
          split_ifs at h1 with hzms
          · exact Or.inl (by rw [← h1]; exact List.mem_cons_self _ _)
          · exact Or.inr (by rw [h1])
      · intro y hy
        rcases List.mem_cons.mp hy with rfl | hy
        · omega
        · exact m2 y hy
      · intro z' hz'
        injection hz' with hz'
        omega

theorem mfold_append (o : Option Int) (l1 l2 : List Int) :
    mfold o (l1 ++ l2) = mfold (mfold o l1) l2 := by
  simp [mfold, List.foldl_append]

theorem lookupA_aggregate (msOf : α → Int) (resp : MarketChartRangeResp α)
    (day : Int) :
    lookupA (aggregate msOf resp) day =
      foldSamples .v
        (foldSamples .mc
          (foldSamples .p none (samplesOf msOf resp.prices day))
          (samplesOf msOf resp.marketCaps day))
        (samplesOf msOf resp.totalVolumes day) := by
  unfold aggregate
  rw [lookupA_applySeries, lookupA_applySeries, lookupA_applySeries]
  rfl

/-- C7: the aggregation keeps at most one record per UTC day; a day carries
a record exactly when some well-formed sample of one of the three series
falls on it; per metric the last sample on the day wins (absent metrics keep
the zero value); and the record's timestamp is the latest sample timestamp
on the day across all three series. -/
theorem aggregate_last_sample_wins (msOf : α → Int)
    (resp : MarketChartRangeResp α) :
    (keysOf (aggregate msOf resp)).Nodup ∧
    (∀ day : Int, day ∈ keysOf (aggregate msOf resp) ↔
      (samplesOf msOf resp.prices day ≠ [] ∨
       samplesOf msOf resp.marketCaps day ≠ [] ∨
       samplesOf msOf resp.totalVolumes day ≠ [])) ∧
    (∀ (day : Int) (a : DailyAgg α),
      lookupA (aggregate msOf resp) day = some a →
      a.p = ((samplesOf msOf resp.prices day).map
        Prod.snd).getLastD default ∧
      a.mc = ((samplesOf msOf resp.marketCaps day).map
        Prod.snd).getLastD default ∧
      a.v = ((samplesOf msOf resp.totalVolumes day).map
        Prod.snd).getLastD default ∧
      a.ts ∈ ((samplesOf msOf resp.prices day ++
               samplesOf msOf resp.marketCaps day ++
               samplesOf msOf resp.totalVolumes day).map Prod.fst) ∧
      (∀ ms ∈ ((samplesOf msOf resp.prices day ++
                samplesOf msOf resp.marketCaps day ++
                samplesOf msOf resp.totalVolumes day).map Prod.fst),
        ms ≤ a.ts)) := by
  refine ⟨?_, ?_, ?_⟩
  · exact nodup_keys_applySeries _ _ _ _
      (nodup_keys_applySeries _ _ _ _
        (nodup_keys_applySeries _ _ _ _ (by simp [keysOf])))
  · intro day
    rw [← lookupA_isSome_iff_mem, lookupA_aggregate]
    simp only [Option.isSome_iff_ne_none, ne_eq, foldSamples_eq_none_iff]
    tauto
  · intro day a hla
    have hts : tsM (some a) =
        mfold none ((samplesOf msOf resp.prices day ++
          samplesOf msOf resp.marketCaps day ++
          samplesOf msOf resp.totalVolumes day).map Prod.fst) := by
      rw [← hla, lookupA_aggregate, tsM_foldSamples, tsM_foldSamples,
        tsM_foldSamples]
      show mfold _ _ = _
      rw [List.map_append, List.map_append, mfold_append, mfold_append]
      rfl
    have hp : a.p = ((samplesOf msOf resp.prices day).map
        Prod.snd).getLastD default := by
      have h1 : getM (some a) .p = a.p := rfl
      rw [← h1, ← hla, lookupA_aggregate,
        getM_foldSamples_other .v .p (by decide),
        getM_foldSamples_other .mc .p (by decide),
        getM_foldSamples_same]
      rfl
    have hmc : a.mc = ((samplesOf msOf resp.marketCaps day).map
        Prod.snd).getLastD default := by
      have h1 : getM (some a) .mc = a.mc := rfl
      rw [← h1, ← hla, lookupA_aggregate,
        getM_foldSamples_other .v .mc (by decide),
        getM_foldSamples_same]
      have h2 : getM (foldSamples .p none
          (samplesOf msOf resp.prices day)) .mc = default := by
        rw [getM_foldSamples_other .p .mc (by decide)]
        rfl
      rw [h2]
    have hv : a.v = ((samplesOf msOf resp.totalVolumes day).map
        Prod.snd).getLastD default := by
      have h1 : getM (some a) .v = a.v := rfl
      rw [← h1, ← hla, lookupA_aggregate, getM_foldSamples_same]
      have h2 : getM (foldSamples .mc
          (foldSamples .p none (samplesOf msOf resp.prices day))
          (samplesOf msOf resp.marketCaps day)) .v = default := by
        rw [getM_foldSamples_other .mc .v (by decide),
          getM_foldSamples_other .p .v (by decide)]
        rfl
      rw [h2]
    obtain ⟨m1, m2, -⟩ := mfold_max _ _ _ hts.symm
    refine ⟨hp, hmc, hv, ?_, m2⟩
    rcases m1 with h1 | h1
    · exact h1
    · cases h1

/-- Witness for `aggregate_last_sample_wins` at a concrete response:
two price samples on day 0 (values 5 then 7), one market-cap sample
(value 9), no volume sample; the record keeps p = 7, mc = 9, v = 0 and
timestamp 100. -/
theorem aggregate_last_sample_wins_witness :
    (keysOf (aggregate (fun x : Int => x)
      ⟨[[0, 5], [100, 7]], [[50, 9]], []⟩)).Nodup ∧
    (⟨100, 7, 9, 0⟩ : DailyAgg Int).p =
      ((samplesOf (fun x : Int => x) [[0, 5], [100, 7]] 0).map
        Prod.snd).getLastD default :=
  ⟨(aggregate_last_sample_wins (fun x : Int => x)
      ⟨[[0, 5], [100, 7]], [[50, 9]], []⟩).1,
   ((aggregate_last_sample_wins (fun x : Int => x)
      ⟨[[0, 5], [100, 7]], [[50, 9]], []⟩).2.2 0 ⟨100, 7, 9, 0⟩
      (by decide)).1⟩

end CG
